import Mathlib

/-!
Shallow embedding of the `provenant` crate (src/lib.rs): an atomically
reference counted shared pointer (`Arc`) whose weak pointers (`Weak`)
carry a random provenance tag instead of a weak count.

The shared cell `Inner<T>` holds two atomic words:
  * `provenance` — the low bit is used for locking, the remaining bits
    are a random provenance id (the identity/generation tag);
  * `ref_count` — the number of live `Arc` handles.

Machine integers (`usize`) are modelled as `Nat` with explicit wrapping
(`% 2 ^ 64`) on the fetch-add / fetch-sub operations, matching the
wrapping semantics of `AtomicUsize::fetch_add` / `fetch_sub`.

Two views of the code are embedded:
  * per-operation sequential semantics (`lockFuel`/`lockSq`, `upgradeSq`,
    `dropSq`, `cloneSq`, `arcNew`, `Inner.weak`) used for the lifecycle
    trace model (`World`, `stepOp`, `runOps`);
  * a small-step machine for `impl Drop for Arc` (`DropPc`, `dropStep`,
    `DropReach`) in which an arbitrary environment may rewrite the cell
    between the thread's atomic steps, so that the branches that are only
    reachable under interference (failed lock, resurrected count) can be
    stated and proved.
-/

namespace Provenant

/-- The modulus of `usize` arithmetic (64-bit platform). -/
def USIZE : Nat := 2 ^ 64

/-- `AtomicUsize::fetch_add(1, _)`: the new stored value (wrapping). -/
def wrapAdd (n : Nat) : Nat := (n + 1) % USIZE

/-- `AtomicUsize::fetch_sub(1, _)`: the new stored value (wrapping). -/
def wrapSub (n : Nat) : Nat := (n + (USIZE - 1)) % USIZE

/-- `p ^ (p & 1)`: clear the low (lock) bit, exactly as written in
`Inner::weak` (line 48), `Arc::drop` (line 99) and `Arc::new` (line 134). -/
def clearLow (p : Nat) : Nat := p ^^^ (p &&& 1)

/-- The shared cell `Inner<T>`: provenance word, strong count, payload. -/
structure Inner (α : Type) where
  provenance : Nat
  ref_count : Nat
  data : α
deriving DecidableEq

/-- A weak pointer: the captured provenance snapshot.  (The `ptr` field of
the Rust struct is implicit here: the model has a single cell.) -/
structure Weak where
  provenance : Nat
deriving DecidableEq

/-- `Inner::weak`: load `provenance` (Relaxed), clear the low bit, and
package the snapshot.  The cell itself is not modified. -/
def Inner.weak {α : Type} (c : Inner α) : Weak :=
  ⟨clearLow c.provenance⟩

/-- An unlock: `provenance.store(v, SeqCst)` — an unconditional plain
store, used at lib.rs lines 85, 115 and 120. -/
def storeProv {α : Type} (c : Inner α) (v : Nat) : Inner α :=
  { c with provenance := v }

/-- `Inner::lock(exp)`, one loop iteration per unit of fuel.  Each
iteration is `provenance.compare_exchange(exp, exp | 1, SeqCst, SeqCst)`:
on success return `true` with the lock bit set, on failure with observed
value `exp | 1` retry, on any other observed value return `false` leaving
the word untouched.  `none` means the fuel ran out while spinning. -/
def lockFuel {α : Type} : Nat → Inner α → Nat → Option (Bool × Inner α)
  | 0, _, _ => none
  | fuel + 1, c, exp =>
    if c.provenance = exp then
      some (true, { c with provenance := exp ||| 1 })
    else if c.provenance = exp ||| 1 then
      lockFuel fuel c exp
    else
      some (false, c)

/-- `Inner::lock(exp)` under sequential (interference-free) execution:
the observed word never changes between iterations, so the loop either
resolves at the first compare-exchange or spins forever (`none`). -/
def lockSq {α : Type} (c : Inner α) (exp : Nat) : Option (Bool × Inner α) :=
  lockFuel 1 c exp

/-- `Weak::upgrade` under sequential execution, for a captured snapshot
`wp`.  Result `some (false, c)` models `return None`; `some (true, c)`
models `return Some(Arc { .. })`; `none` models spinning forever in
`lock`.  On success the code increments `ref_count` (fetch_add) and then
releases the lock with a plain store of `wp`. -/
def upgradeSq {α : Type} (wp : Nat) (c : Inner α) : Option (Bool × Inner α) :=
  match lockSq c wp with
  | none => none
  | some (false, c1) => some (false, c1)
  | some (true, c1) =>
    let c2 := { c1 with ref_count := wrapAdd c1.ref_count }
    some (true, storeProv c2 wp)

/-- `impl Clone for Arc`: `ref_count.fetch_add(1, SeqCst)`. -/
def cloneSq {α : Type} (c : Inner α) : Inner α :=
  { c with ref_count := wrapAdd c.ref_count }

/-- `Arc::new(val)` with the random sample `r` supplied by the external
random source: clear the low bit of `r`, allocate the cell with that
provenance, `ref_count = 1` and the payload. -/
def arcNew {α : Type} (r : Nat) (v : α) : Inner α :=
  ⟨clearLow r, 1, v⟩

/-- `impl Deref for Arc`: a direct reference to the payload. -/
def derefSq {α : Type} (c : Inner α) : α :=
  c.data

/-- `impl Drop for Arc` under sequential execution.  Result
`some (dealloc, c)` records whether the cell was deallocated and the
final contents of its memory; `none` models spinning forever in `lock`.
Steps, exactly as in lib.rs lines 92–126: load provenance and mask the
lock bit; fetch_sub the count (stop if the pre-decrement value exceeded
1); `lock(exp)` (stop if it fails); re-load the count (if non-zero,
store `exp` and stop); otherwise store 0 and deallocate. -/
def dropSq {α : Type} (c : Inner α) : Option (Bool × Inner α) :=
  let exp := clearLow c.provenance
  let pre := c.ref_count
  let c1 := { c with ref_count := wrapSub c.ref_count }
  if 1 < pre then
    some (false, c1)
  else
    match lockSq c1 exp with
    | none => none
    | some (false, c2) => some (false, c2)
    | some (true, c2) =>
      if c2.ref_count ≠ 0 then
        some (false, storeProv c2 exp)
      else
        some (true, storeProv c2 0)

/-! ### Small-step machine for `impl Drop for Arc` (lib.rs 91–127)

Each constructor of `DropPc` is a program point just before one atomic
operation of the drop code; the local registers (`exp`, the observed
count) are carried in the program counter.  Between the thread's steps an
arbitrary environment (other threads) may rewrite the cell, which the
reachability relation `DropReach` allows explicitly. -/

/-- Program counter of the dropping thread, with its local registers. -/
inductive DropPc where
  /-- about to load `provenance` -/
  | start
  /-- about to `ref_count.fetch_sub(1)`; `exp` is the masked identity -/
  | dec (exp : Nat)
  /-- about to attempt one `compare_exchange` of `Inner::lock(exp)` -/
  | lk (exp : Nat)
  /-- lock held; about to re-load `ref_count` -/
  | chk (exp : Nat)
  /-- lock held; observed count `cnt`; about to store and finish -/
  | fin (exp : Nat) (cnt : Nat)
  /-- returned; `dealloc` records whether the cell was deallocated -/
  | done (dealloc : Bool)
deriving DecidableEq

/-- One atomic step of the dropping thread on the shared cell. -/
def dropStep {α : Type} : DropPc × Inner α → DropPc × Inner α
  | (.start, c) => (.dec (clearLow c.provenance), c)
  | (.dec exp, c) =>
    let pre := c.ref_count
    let c1 := { c with ref_count := wrapSub c.ref_count }
    if 1 < pre then (.done false, c1) else (.lk exp, c1)
  | (.lk exp, c) =>
    if c.provenance = exp then (.chk exp, { c with provenance := exp ||| 1 })
    else if c.provenance = exp ||| 1 then (.lk exp, c)
    else (.done false, c)
  | (.chk exp, c) => (.fin exp c.ref_count, c)
  | (.fin exp cnt, c) =>
    if cnt ≠ 0 then (.done false, storeProv c exp)
    else (.done true, storeProv c 0)
  | (.done b, c) => (.done b, c)

/-- Reachability for the drop machine: the thread may take its own step,
and between steps the environment may rewrite the cell arbitrarily (the
program counter and its registers are thread-local). -/
inductive DropReach {α : Type} : DropPc × Inner α → DropPc × Inner α → Prop where
  | refl (s : DropPc × Inner α) : DropReach s s
  | mine {s t : DropPc × Inner α} : DropReach s t → DropReach s (dropStep t)
  | env {s t : DropPc × Inner α} (c : Inner α) : DropReach s t → DropReach s (t.1, c)

/-! ### Lifecycle trace model

A `World` is the single shared cell plus ghost bookkeeping: whether the
cell's memory has been deallocated, how many owning handles are live,
how many times the payload's cleanup has run, and the (optional) weak
pointer's captured snapshot.  After deallocation the memory is modelled
as holding the scrubbed values `provenance = 0` (`Inner::drop` writes
zero, line 39, and the drop path stores 0 first, line 120) and
`ref_count = 0` (its value at the moment of deallocation). -/

structure World (α : Type) where
  cell : Inner α
  freed : Bool
  owners : Nat
  drops : Nat
  weakProv : Option Nat
deriving DecidableEq

/-- The world right after `Arc::new(v)` with random sample `r`. -/
def initW {α : Type} (r : Nat) (v : α) : World α :=
  ⟨arcNew r v, false, 1, 0, none⟩

/-- The operations a sequential client can perform: clone a live `Arc`,
drop a live `Arc`, downgrade a live `Arc`, or upgrade the weak pointer. -/
inductive Op where
  | cloneArc
  | dropArc
  | downgradeArc
  | upgradeArc
deriving DecidableEq


/-- One client operation.  `none` means the operation is not available in
this world (no live handle to clone/drop/downgrade, no weak pointer yet)
or that the code would spin forever. -/
def stepOp {α : Type} : Op → World α → Option (World α)
  | .cloneArc, w =>
    if w.owners = 0 then none
    else some { w with cell := cloneSq w.cell, owners := w.owners + 1 }
  | .downgradeArc, w =>
    if w.owners = 0 then none
    else some { w with weakProv := some (Inner.weak w.cell).provenance }
  | .upgradeArc, w =>
    w.weakProv.bind fun wp =>
      (upgradeSq wp w.cell).map fun r =>
        if r.1 then { w with cell := r.2, owners := w.owners + 1 }
        else { w with cell := r.2 }
  | .dropArc, w =>
    if w.owners = 0 then none
    else
      (dropSq w.cell).map fun r =>
        if r.1 then
          { w with
            cell := storeProv r.2 0
            freed := true
            owners := w.owners - 1
            drops := w.drops + 1 }
        else { w with cell := r.2, owners := w.owners - 1 }

/-- Run a list of client operations in order. -/
def runOps {α : Type} : List Op → World α → Option (World α)
  | [], w => some w
  | op :: ops, w => (stepOp op w).bind (runOps ops)

/-- What `weak.upgrade()` would return in world `w`: `some none` models
`None`, `some (some v)` models `Some(arc)` with `*arc = v`; the outer
`none` means no weak pointer has been derived yet (or the code would
spin). -/
def upgradeOutcome {α : Type} (w : World α) : Option (Option α) :=
  w.weakProv.bind fun wp =>
    (upgradeSq wp w.cell).map fun r =>
      if r.1 then some (derefSq r.2) else none

/-- The state invariant maintained by every valid trace that starts from
`initW r v`, where `idv` is the sampled identity `clearLow r`. -/
def Inv {α : Type} (idv : Nat) (v : α) (w : World α) : Prop :=
  (∀ wp, w.weakProv = some wp → wp = idv) ∧
  (w.freed = true →
    w.cell.provenance = 0 ∧ w.cell.ref_count = 0 ∧ w.owners = 0 ∧ w.drops = 1) ∧
  (w.freed = false →
    w.cell.provenance = idv ∧ w.cell.ref_count = w.owners ∧ 1 ≤ w.owners ∧
      w.drops = 0 ∧ w.cell.data = v)

/-! ### Memory orderings of the control-field accesses

One constructor of `Site` per atomic access to the cell's control fields
(`provenance` and `ref_count`) in the source; `orderOf` transcribes the
`Ordering` argument written at that call site.  (The `write_volatile`
scrub in `Inner::drop`, line 39, is not an atomic access and has no
ordering argument; the `compiler_fence` is not a field access.) -/

/-- The memory orderings appearing in the source's atomic accesses. -/
inductive MemOrder where
  | relaxed
  | seqCst
deriving DecidableEq

/-- The atomic accesses to the control fields, one per call site. -/
inductive Site where
  /-- line 47: `provenance.load` in `Inner::weak` -/
  | weakLoadProv
  /-- line 59: `compare_exchange` success ordering in `Inner::lock` -/
  | lockCasSuccess
  /-- line 59: `compare_exchange` failure ordering in `Inner::lock` -/
  | lockCasFailure
  /-- line 82: `ref_count.fetch_add` in `Weak::upgrade` -/
  | upgradeFetchAdd
  /-- line 85: `provenance.store` (unlock) in `Weak::upgrade` -/
  | upgradeStoreProv
  /-- line 98: `provenance.load` in `Arc::drop` -/
  | dropLoadProv
  /-- line 101: `ref_count.fetch_sub` in `Arc::drop` -/
  | dropFetchSub
  /-- line 114: `ref_count.load` re-check in `Arc::drop` -/
  | dropLoadRef
  /-- line 115: `provenance.store` (unlock) in `Arc::drop` -/
  | dropStoreUnlock
  /-- line 120: `provenance.store(0)` before deallocation in `Arc::drop` -/
  | dropStoreScrub
  /-- line 168: `ref_count.fetch_add` in `Clone for Arc` -/
  | cloneFetchAdd
deriving DecidableEq

/-- The ordering used at each access, transcribed from the source. -/
def orderOf : Site → MemOrder
  | .weakLoadProv => .relaxed
  | .lockCasSuccess => .seqCst
  | .lockCasFailure => .seqCst
  | .upgradeFetchAdd => .seqCst
  | .upgradeStoreProv => .seqCst
  | .dropLoadProv => .seqCst
  | .dropFetchSub => .seqCst
  | .dropLoadRef => .seqCst
  | .dropStoreUnlock => .seqCst
  | .dropStoreScrub => .seqCst
  | .cloneFetchAdd => .seqCst


/-! ### Bitwise helper lemmas about the lock bit -/

theorem clearLow_testBit_zero (p : Nat) : (clearLow p).testBit 0 = false := by
  unfold clearLow
  rw [Nat.testBit_xor, Nat.testBit_and, Nat.testBit_one_zero]
  cases p.testBit 0 <;> rfl

theorem clearLow_mod_two (p : Nat) : clearLow p % 2 = 0 := by
  rw [Nat.mod_two_eq_zero_iff_testBit_zero]
  exact clearLow_testBit_zero p

theorem clearLow_of_even {p : Nat} (h : p % 2 = 0) : clearLow p = p := by
  unfold clearLow
  rw [Nat.and_one_is_mod, h, Nat.xor_zero]

theorem clearLow_clearLow (p : Nat) : clearLow (clearLow p) = clearLow p :=
  clearLow_of_even (clearLow_mod_two p)

theorem or_one_mod_two (p : Nat) : (p ||| 1) % 2 = 1 := by
  rw [Nat.mod_two_eq_one_iff_testBit_zero]
  simp

theorem ne_or_one_of_even {p q : Nat} (h : p % 2 = 0) : p ≠ q ||| 1 := by
  intro hc
  rw [hc, or_one_mod_two] at h
  exact one_ne_zero h

theorem clearLow_or_one {p : Nat} (h : p % 2 = 0) : clearLow (p ||| 1) = p := by
  have h0 : p.testBit 0 = false := by
    rw [← Nat.mod_two_eq_zero_iff_testBit_zero]; exact h
  unfold clearLow
  rw [Nat.and_one_is_mod, or_one_mod_two]
  apply Nat.eq_of_testBit_eq
  intro i
  cases i with
  | zero =>
    rw [Nat.testBit_xor, Nat.testBit_or, Nat.testBit_one_zero, h0]
    rfl
  | succ j =>
    have h1 : Nat.testBit 1 (j + 1) = false := by
      rw [Nat.testBit_succ, show (1 : Nat) / 2 = 0 from rfl, Nat.zero_testBit]
    rw [Nat.testBit_xor, Nat.testBit_or, h1]
    cases p.testBit (j + 1) <;> rfl

/-! ### usize wrap lemmas -/

theorem USIZE_pos : 0 < USIZE := by
  unfold USIZE
  exact Nat.pos_pow_of_pos 64 (by decide)

theorem wrapAdd_eq {n : Nat} (h : n + 1 < USIZE) : wrapAdd n = n + 1 := by
  unfold wrapAdd
  exact Nat.mod_eq_of_lt h

theorem wrapSub_eq {n : Nat} (h1 : 1 ≤ n) (h2 : n < USIZE) : wrapSub n = n - 1 := by
  unfold wrapSub
  have he : n + (USIZE - 1) = (n - 1) + USIZE := by
    have := USIZE_pos
    omega
  rw [he, Nat.add_mod_right]
  exact Nat.mod_eq_of_lt (by omega)

theorem initW_Inv {α : Type} (r : Nat) (v : α) : Inv (clearLow r) v (initW r v) := by
  refine ⟨fun wp hwp => by simp [initW] at hwp, fun hft => by simp [initW] at hft, ?_⟩
  intro _
  exact ⟨rfl, rfl, Nat.le_refl 1, rfl, rfl⟩

theorem stepOp_inv {α : Type} {idv : Nat} {v : α} {op : Op} {w w1 : World α}
    (hid2 : idv % 2 = 0) (hid0 : idv ≠ 0)
    (h : Inv idv v w) (hb : w.owners + 1 < USIZE)
    (hs : stepOp op w = some w1) :
    Inv idv v w1 ∧ w1.owners ≤ w.owners + 1 := by
  obtain ⟨hwk, hfr, hlv⟩ := h
  cases op with
  | cloneArc =>
    by_cases h0 : w.owners = 0
    · simp only [stepOp, if_pos h0] at hs
      exact Option.noConfusion hs
    · have hff : w.freed = false := by
        cases hq : w.freed
        · rfl
        · exact absurd (hfr hq).2.2.1 h0
      obtain ⟨hp, hrc, h1own, hdr, hdata⟩ := hlv hff
      simp only [stepOp, if_neg h0] at hs
      injection hs with hs
      subst hs
      refine ⟨⟨fun wq hwq => hwk wq hwq, ?_, ?_⟩, ?_⟩
      · intro hft
        exact absurd (hff ▸ hft) (by simp)
      · intro _
        refine ⟨hp, ?_, ?_, hdr, hdata⟩
        · show wrapAdd w.cell.ref_count = w.owners + 1
          rw [hrc]
          exact wrapAdd_eq hb
        · show 1 ≤ w.owners + 1
          omega
      · show w.owners + 1 ≤ w.owners + 1
        omega
  | downgradeArc =>
    by_cases h0 : w.owners = 0
    · simp only [stepOp, if_pos h0] at hs
      exact Option.noConfusion hs
    · have hff : w.freed = false := by
        cases hq : w.freed
        · rfl
        · exact absurd (hfr hq).2.2.1 h0
      obtain ⟨hp, hrc, h1own, hdr, hdata⟩ := hlv hff
      simp only [stepOp, if_neg h0] at hs
      injection hs with hs
      subst hs
      refine ⟨⟨?_, ?_, ?_⟩, ?_⟩
      · intro wq hwq
        have hq : some (clearLow w.cell.provenance) = some wq := by
          simpa [Inner.weak] using hwq
        injection hq with hq
        rw [← hq, hp, clearLow_of_even hid2]
      · intro hft
        exact absurd (hff ▸ hft) (by simp)
      · intro _
        exact ⟨hp, hrc, h1own, hdr, hdata⟩
      · show w.owners ≤ w.owners + 1
        omega
  | upgradeArc =>
    cases hwp : w.weakProv with
    | none =>
      simp only [stepOp] at hs
      rw [hwp] at hs
      exact Option.noConfusion hs
    | some wp =>
      have hwpid : wp = idv := hwk wp hwp
      subst hwpid
      cases hq : w.freed with
      | true =>
        obtain ⟨hp, hrc, how, hd⟩ := hfr hq
        have hup : upgradeSq wp w.cell = some (false, w.cell) := by
          simp only [upgradeSq, lockSq, lockFuel]
          rw [hp, if_neg (fun hc => hid0 hc.symm),
            if_neg (ne_or_one_of_even (by decide : (0 : Nat) % 2 = 0))]
        have hstep : stepOp Op.upgradeArc w = some { w with cell := w.cell } := by
          simp only [stepOp]
          rw [hwp]
          simp [hup]
        rw [hstep] at hs
        injection hs with hs
        subst hs
        refine ⟨⟨fun wq hwq => hwk wq hwq, ?_, ?_⟩, ?_⟩
        · intro hft
          exact ⟨hp, hrc, how, hd⟩
        · intro hft
          have hft2 : w.freed = false := hft
          rw [hq] at hft2
          exact Bool.noConfusion hft2
        · show w.owners ≤ w.owners + 1
          omega
      | false =>
        obtain ⟨hp, hrc, h1own, hdr, hdata⟩ := hlv hq
        have hup : upgradeSq wp w.cell =
            some (true, { w.cell with provenance := wp, ref_count := w.owners + 1 }) := by
          simp [upgradeSq, lockSq, lockFuel, storeProv, hp, hrc, wrapAdd_eq hb]
        have hstep : stepOp Op.upgradeArc w =
            some { w with
              cell := { w.cell with provenance := wp, ref_count := w.owners + 1 },
              owners := w.owners + 1 } := by
          simp only [stepOp]
          rw [hwp]
          simp [hup]
        rw [hstep] at hs
        injection hs with hs
        subst hs
        refine ⟨⟨fun wq hwq => hwk wq hwq, ?_, ?_⟩, ?_⟩
        · intro hft
          exact absurd (hq ▸ hft) (by simp)
        · intro _
          refine ⟨rfl, rfl, ?_, hdr, hdata⟩
          show 1 ≤ w.owners + 1
          omega
        · show w.owners + 1 ≤ w.owners + 1
          omega
  | dropArc =>
    by_cases h0 : w.owners = 0
    · simp only [stepOp, if_pos h0] at hs
      exact Option.noConfusion hs
    · have hff : w.freed = false := by
        cases hq : w.freed
        · rfl
        · exact absurd (hfr hq).2.2.1 h0
      obtain ⟨hp, hrc, h1own, hdr, hdata⟩ := hlv hff
      by_cases hgt : 1 < w.owners
      · have hdrop : dropSq w.cell =
            some (false, { w.cell with ref_count := w.owners - 1 }) := by
          simp [dropSq, hrc, if_pos hgt, wrapSub_eq h1own (show w.owners < USIZE by omega)]
        have hstep : stepOp Op.dropArc w =
            some { w with
              cell := { w.cell with ref_count := w.owners - 1 }
              owners := w.owners - 1 } := by
          simp only [stepOp, if_neg h0]
          simp [hdrop]
        rw [hstep] at hs
        injection hs with hs
        subst hs
        refine ⟨⟨fun wq hwq => hwk wq hwq, ?_, ?_⟩, ?_⟩
        · intro hft
          exact absurd (hff ▸ hft) (by simp)
        · intro _
          refine ⟨hp, rfl, ?_, hdr, hdata⟩
          show 1 ≤ w.owners - 1
          omega
        · show w.owners - 1 ≤ w.owners + 1
          omega
      · have how1 : w.owners = 1 := by omega
        have hws : wrapSub 1 = 0 := by
          rw [wrapSub_eq (Nat.le_refl 1) (show (1 : Nat) < USIZE by
            have := USIZE_pos
            unfold USIZE
            omega)]
        have hdrop : dropSq w.cell = some (true, ⟨0, 0, w.cell.data⟩) := by
          simp [dropSq, lockSq, lockFuel, storeProv, hrc, how1, hws, hp,
            clearLow_of_even hid2]
        have hstep : stepOp Op.dropArc w =
            some { w with
              cell := ⟨0, 0, w.cell.data⟩
              freed := true
              owners := w.owners - 1
              drops := w.drops + 1 } := by
          simp only [stepOp, if_neg h0]
          simp [hdrop, storeProv]
        rw [hstep] at hs
        injection hs with hs
        subst hs
        refine ⟨⟨fun wq hwq => hwk wq hwq, ?_, ?_⟩, ?_⟩
        · intro _
          refine ⟨rfl, rfl, ?_, ?_⟩
          · show w.owners - 1 = 0
            omega
          · show w.drops + 1 = 1
            omega
        · intro hft
          exact absurd hft (by simp)
        · show w.owners - 1 ≤ w.owners + 1
          omega

theorem runOps_inv {α : Type} {idv : Nat} {v : α}
    (hid2 : idv % 2 = 0) (hid0 : idv ≠ 0) :
    ∀ (ops : List Op) (w w1 : World α), Inv idv v w →
      w.owners + ops.length < USIZE → runOps ops w = some w1 →
      Inv idv v w1 ∧ w1.owners ≤ w.owners + ops.length := by
  intro ops
  induction ops with
  | nil =>
    intro w w1 h hb hs
    simp only [runOps] at hs
    injection hs with hs
    subst hs
    exact ⟨h, by omega⟩
  | cons op ops ih =>
    intro w w1 h hb hs
    simp only [runOps] at hs
    cases hstep : stepOp op w with
    | none =>
      rw [hstep] at hs
      exact Option.noConfusion hs
    | some w2 =>
      rw [hstep] at hs
      have hs2 : runOps ops w2 = some w1 := hs
      have hlc : (op :: ops).length = 1 + ops.length := by
        simp only [List.length_cons]
        omega
      have hone : Inv idv v w2 ∧ w2.owners ≤ w.owners + 1 :=
        stepOp_inv hid2 hid0 h (by rw [hlc] at hb; omega) hstep
      have hrest := ih w2 w1 hone.1 (by rw [hlc] at hb; omega; ) hs2
      refine ⟨hrest.1, ?_⟩
      have h2 := hrest.2
      have h3 := hone.2
      rw [hlc]
      omega

/-! ### Helper lemmas for the drop machine -/

theorem dropStep_done_true {α : Type} (pc : DropPc) (c : Inner α)
    (h : (dropStep (pc, c)).1 = DropPc.done true) :
    pc = DropPc.done true ∨ ∃ e, pc = DropPc.fin e 0 := by
  cases pc with
  | start => exact absurd h (by simp [dropStep])
  | dec exp =>
    by_cases hgt : 1 < c.ref_count
    · rw [show dropStep (DropPc.dec exp, c) =
        (DropPc.done false, { c with ref_count := wrapSub c.ref_count }) from
        by simp [dropStep, hgt]] at h
      exact absurd h (by simp)
    · rw [show dropStep (DropPc.dec exp, c) =
        (DropPc.lk exp, { c with ref_count := wrapSub c.ref_count }) from
        by simp [dropStep, hgt]] at h
      exact absurd h (by simp)
  | lk exp =>
    by_cases h1 : c.provenance = exp
    · rw [show dropStep (DropPc.lk exp, c) =
        (DropPc.chk exp, { c with provenance := exp ||| 1 }) from
        by simp [dropStep, h1]] at h
      exact absurd h (by simp)
    · by_cases h2 : c.provenance = exp ||| 1
      · have h3 : ¬(exp ||| 1 = exp) := fun hc => h1 (h2.trans hc)
        rw [show dropStep (DropPc.lk exp, c) = (DropPc.lk exp, c) from
          by simp [dropStep, h1, h2, h3]] at h
        exact absurd h (by simp)
      · rw [show dropStep (DropPc.lk exp, c) = (DropPc.done false, c) from
          by simp [dropStep, h1, h2]] at h
        exact absurd h (by simp)
  | chk exp => exact absurd h (by simp [dropStep])
  | fin exp cnt =>
    by_cases hc : cnt = 0
    · subst hc
      exact Or.inr ⟨exp, rfl⟩
    · rw [show dropStep (DropPc.fin exp cnt, c) =
        (DropPc.done false, storeProv c exp) from by simp [dropStep, hc]] at h
      exact absurd h (by simp)
  | done b =>
    left
    exact h

theorem dropReach_fin_of_done {α : Type} {s0 s : DropPc × Inner α}
    (h : DropReach s0 s) :
    s.1 = DropPc.done true →
      s0.1 = DropPc.done true ∨ ∃ e c1, DropReach s0 (DropPc.fin e 0, c1) := by
  induction h with
  | refl =>
    intro hq
    exact Or.inl hq
  | mine h ih =>
    rename_i t
    intro hq
    obtain ⟨pc, c⟩ := t
    rcases dropStep_done_true pc c hq with hdone | ⟨e, hfin⟩
    · exact ih (by simp [hdone])
    · subst hfin
      exact Or.inr ⟨e, c, h⟩
  | env c2 h ih =>
    intro hq
    exact ih hq

/-! ### Claim theorems -/

/-- C1: on release of an owning handle (`impl Drop for Arc`), the thread
first reads the identity (the generation word with the lock bit masked
off) without writing, then atomically decrements the strong count; if the
pre-decrement value was greater than 1 it stops with no further effect
(the `done` state is absorbing); otherwise it attempts `lock(identity)`
and, if the word holds any value other than the identity or its locked
form, stops without touching the cell again; with the lock held it
re-reads the strong count, and if that is non-zero it stores the identity
with the lock bit clear and stops without deallocating; it deallocates
(reaching `done true`, after storing 0) exactly on the branch where the
re-read count is zero, and any execution that deallocates — under
arbitrary interference by other threads — passed through a state where
the count was confirmed zero under the lock. -/
theorem C1_drop_release_protocol {α : Type} :
    (∀ c : Inner α,
      dropStep (DropPc.start, c) = (DropPc.dec (clearLow c.provenance), c)) ∧
    (∀ (c : Inner α) (exp : Nat), 1 < c.ref_count →
      dropStep (DropPc.dec exp, c) =
        (DropPc.done false, { c with ref_count := wrapSub c.ref_count })) ∧
    (∀ (c : Inner α) (exp : Nat), c.ref_count ≤ 1 →
      dropStep (DropPc.dec exp, c) =
        (DropPc.lk exp, { c with ref_count := wrapSub c.ref_count })) ∧
    (∀ (c : Inner α) (exp : Nat), c.provenance ≠ exp → c.provenance ≠ exp ||| 1 →
      dropStep (DropPc.lk exp, c) = (DropPc.done false, c)) ∧
    (∀ (c : Inner α) (exp : Nat), c.provenance = exp →
      dropStep (DropPc.lk exp, c) = (DropPc.chk exp, { c with provenance := exp ||| 1 })) ∧
    (∀ (c : Inner α) (exp : Nat),
      dropStep (DropPc.chk exp, c) = (DropPc.fin exp c.ref_count, c)) ∧
    (∀ (c : Inner α) (exp cnt : Nat), cnt ≠ 0 →
      dropStep (DropPc.fin exp cnt, c) = (DropPc.done false, storeProv c exp)) ∧
    (∀ (c : Inner α) (exp : Nat),
      dropStep (DropPc.fin exp 0, c) = (DropPc.done true, storeProv c 0)) ∧
    (∀ (c : Inner α) (b : Bool), dropStep (DropPc.done b, c) = (DropPc.done b, c)) ∧
    (∀ (c0 : Inner α) (s : DropPc × Inner α),
      DropReach (DropPc.start, c0) s → s.1 = DropPc.done true →
      ∃ e c1, DropReach (DropPc.start, c0) (DropPc.fin e 0, c1)) := by
  refine ⟨fun c => rfl, ?_, ?_, ?_, ?_, fun c exp => rfl, ?_, ?_, fun c b => rfl, ?_⟩
  · intro c exp h
    simp [dropStep, h]
  · intro c exp h
    have hne : ¬(1 < c.ref_count) := by omega
    simp [dropStep, hne]
  · intro c exp h1 h2
    simp [dropStep, h1, h2]
  · intro c exp h
    simp [dropStep, h]
  · intro c exp cnt h
    simp [dropStep, h]
  · intro c exp
    simp [dropStep]
  · intro c0 s h hq
    exact (dropReach_fin_of_done h hq).resolve_left (by simp)

/-- C1 witness: the drop-machine steps at concrete states. -/
theorem C1_drop_release_protocol_witness :
    dropStep (DropPc.dec 4, (⟨4, 2, 0⟩ : Inner Nat)) = (DropPc.done false, ⟨4, 1, 0⟩) ∧
    dropStep (DropPc.dec 4, (⟨4, 1, 0⟩ : Inner Nat)) = (DropPc.lk 4, ⟨4, 0, 0⟩) ∧
    dropStep (DropPc.lk 4, (⟨8, 0, 0⟩ : Inner Nat)) = (DropPc.done false, ⟨8, 0, 0⟩) ∧
    dropStep (DropPc.lk 4, (⟨4, 0, 0⟩ : Inner Nat)) = (DropPc.chk 4, ⟨5, 0, 0⟩) ∧
    dropStep (DropPc.fin 4 3, (⟨5, 0, 0⟩ : Inner Nat)) = (DropPc.done false, ⟨4, 0, 0⟩) := by
  refine ⟨?_, ?_, ?_, ?_, ?_⟩
  · have h := (@C1_drop_release_protocol Nat).2.1 ⟨4, 2, 0⟩ 4 (by decide)
    rw [h]
    rfl
  · have h := (@C1_drop_release_protocol Nat).2.2.1 ⟨4, 1, 0⟩ 4 (by decide)
    rw [h]
    rfl
  · exact (@C1_drop_release_protocol Nat).2.2.2.1 ⟨8, 0, 0⟩ 4 (by decide) (by decide)
  · exact (@C1_drop_release_protocol Nat).2.2.2.2.1 ⟨4, 0, 0⟩ 4 (by decide)
  · exact (@C1_drop_release_protocol Nat).2.2.2.2.2.2.1 ⟨5, 0, 0⟩ 4 3 (by decide)

/-- C2: `Weak::upgrade` returns `None` exactly when `try_lock` on the
captured identity fails, i.e. when the generation word holds a value
other than the captured identity or its locked form (the locked form
makes the code spin instead, modelled by the `none` result); on success
it increments the strong count, releases the lock by storing the
captured identity (lock bit clear, since `Inner::weak` cleared it), and
returns a handle to the same cell (same payload); and every other API
operation (`new`, `clone`, `downgrade`, `deref`) is a total function of
its inputs — `upgrade` is the only operation with a failure outcome. -/
theorem C2_upgrade_failure {α : Type} (wp : Nat) (c : Inner α) (r : Nat) (v : α) :
    ((∃ c1, upgradeSq wp c = some (false, c1)) ↔
      (c.provenance ≠ wp ∧ c.provenance ≠ wp ||| 1)) ∧
    (c.provenance = wp →
      upgradeSq wp c =
        some (true, { c with provenance := wp, ref_count := wrapAdd c.ref_count })) ∧
    ((Inner.weak c).provenance % 2 = 0) ∧
    (cloneSq c = { c with ref_count := wrapAdd c.ref_count }) ∧
    (arcNew r v = ⟨clearLow r, 1, v⟩) ∧
    (Inner.weak c = ⟨clearLow c.provenance⟩) ∧
    (derefSq c = c.data) := by
  refine ⟨?_, ?_, clearLow_mod_two c.provenance, rfl, rfl, rfl, rfl⟩
  · by_cases h1 : c.provenance = wp
    · simp [upgradeSq, lockSq, lockFuel, h1]
    · by_cases h2 : c.provenance = wp ||| 1
      · have h3 : ¬(wp ||| 1 = wp) := fun hc => h1 (h2.trans hc)
        simp [upgradeSq, lockSq, lockFuel, h1, h2, h3]
      · simp [upgradeSq, lockSq, lockFuel, h1, h2]
  · intro h
    simp [upgradeSq, lockSq, lockFuel, storeProv, h]

/-- C2 witness: a successful promotion at a concrete cell and a failed
one at a stale identity. -/
theorem C2_upgrade_failure_witness :
    upgradeSq 4 (⟨4, 1, 7⟩ : Inner Nat) = some (true, ⟨4, 2, 7⟩) ∧
    ((∃ c1, upgradeSq 4 (⟨8, 1, 7⟩ : Inner Nat) = some (false, c1)) ↔
      ((8 : Nat) ≠ 4 ∧ (8 : Nat) ≠ 4 ||| 1)) := by
  constructor
  · have h := (C2_upgrade_failure 4 (⟨4, 1, 7⟩ : Inner Nat) 0 0).2.1 rfl
    rw [h]
    rfl
  · exact (C2_upgrade_failure 4 (⟨8, 1, 7⟩ : Inner Nat) 0 0).1

/-- C3: `Inner::lock(exp)` attempts an atomic compare-and-exchange of the
generation word from `exp` to `exp | 1`: if the word equals `exp` the
exchange succeeds, sets the lock bit and returns `true`; if the word
equals `exp | 1` (with `exp` even, i.e. lock bit clear) the loop retries
the compare-and-exchange; on any other value it returns `false`
immediately, at any fuel, leaving the word unmodified; and releasing the
lock (`storeProv`) is an unconditional plain store of the desired next
identity, never a compare-and-exchange. -/
theorem C3_try_lock {α : Type} (c : Inner α) (exp v : Nat) (n : Nat) :
    (c.provenance = exp →
      lockFuel (n + 1) c exp = some (true, { c with provenance := exp ||| 1 })) ∧
    (exp % 2 = 0 → c.provenance = exp ||| 1 →
      lockFuel (n + 1) c exp = lockFuel n c exp) ∧
    (c.provenance ≠ exp → c.provenance ≠ exp ||| 1 →
      lockFuel (n + 1) c exp = some (false, c)) ∧
    (storeProv c v = { c with provenance := v }) := by
  refine ⟨?_, ?_, ?_, rfl⟩
  · intro h
    simp [lockFuel, h]
  · intro hexp h
    have h3 : ¬(exp ||| 1 = exp) := fun hc => ne_or_one_of_even hexp hc.symm
    simp [lockFuel, h, h3]
  · intro h1 h2
    simp [lockFuel, h1, h2]

/-- C3 witness: the three lock outcomes at concrete words. -/
theorem C3_try_lock_witness :
    lockFuel 1 (⟨4, 1, 0⟩ : Inner Nat) 4 = some (true, ⟨5, 1, 0⟩) ∧
    lockFuel 3 (⟨5, 1, 0⟩ : Inner Nat) 4 = lockFuel 2 (⟨5, 1, 0⟩ : Inner Nat) 4 ∧
    lockFuel 1 (⟨8, 1, 0⟩ : Inner Nat) 4 = some (false, ⟨8, 1, 0⟩) := by
  refine ⟨?_, ?_, ?_⟩
  · have h := (C3_try_lock (⟨4, 1, 0⟩ : Inner Nat) 4 0 0).1 rfl
    rw [h]
    rfl
  · exact (C3_try_lock (⟨5, 1, 0⟩ : Inner Nat) 4 0 2).2.1 (by decide) (by decide)
  · exact (C3_try_lock (⟨8, 1, 0⟩ : Inner Nat) 4 0 0).2.2.1 (by decide) (by decide)

/-- C10: whenever `upgrade` returns `None`, the call has left the cell
unchanged — the strong count is not incremented and the generation word
is not modified, because the failed compare-and-exchange writes nothing. -/
theorem C10_failed_upgrade_writes_nothing {α : Type} (wp : Nat) (c c1 : Inner α)
    (h : upgradeSq wp c = some (false, c1)) : c1 = c := by
  by_cases h1 : c.provenance = wp
  · simp [upgradeSq, lockSq, lockFuel, h1] at h
  · by_cases h2 : c.provenance = wp ||| 1
    · have h3 : ¬(wp ||| 1 = wp) := fun hc => h1 (h2.trans hc)
      simp [upgradeSq, lockSq, lockFuel, h1, h2, h3] at h
    · simp [upgradeSq, lockSq, lockFuel, h1, h2] at h
      exact h.symm

/-- C10 witness: a failing promotion at a stale identity leaves the
concrete cell as it was. -/
theorem C10_failed_upgrade_writes_nothing_witness :
    upgradeSq 4 (⟨8, 1, 7⟩ : Inner Nat) = some (false, ⟨8, 1, 7⟩) ∧
    (⟨8, 1, 7⟩ : Inner Nat) = ⟨8, 1, 7⟩ :=
  ⟨rfl, C10_failed_upgrade_writes_nothing 4 ⟨8, 1, 7⟩ ⟨8, 1, 7⟩ rfl⟩

/-- C4: for every valid sequence of clone, release, derive and promote
operations on handles derived from one construction (with a nonzero
sampled identity and fewer than `2 ^ 64 - 1` operations, so the strong
count cannot wrap), the payload's cleanup runs exactly once — after the
last owning handle has been released and no successful promotion is
pending — and never before: at every reachable world the cleanup count
is 1 if no owner is live and 0 otherwise, and the cell is deallocated
exactly when no owner is live. -/
theorem C4_cleanup_exactly_once (r v : Nat) (ops : List Op) (w : World Nat)
    (h0 : clearLow r ≠ 0) (hlen : 1 + ops.length < USIZE)
    (hrun : runOps ops (initW r v) = some w) :
    (w.drops = if w.owners = 0 then 1 else 0) ∧
    (w.freed = true ↔ w.owners = 0) ∧
    w.drops ≤ 1 := by
  obtain ⟨hwk, hfr, hlv⟩ :=
    (runOps_inv (clearLow_mod_two r) h0 ops (initW r v) w (initW_Inv r v)
      (by exact hlen) hrun).1
  cases hq : w.freed
  · obtain ⟨hp, hrc, h1own, hdr, hdata⟩ := hlv hq
    rw [if_neg (by omega)]
    refine ⟨hdr, ⟨fun hc => Bool.noConfusion hc, fun hc => absurd hc (by omega)⟩, by omega⟩
  · obtain ⟨hp, hrc, how, hd⟩ := hfr hq
    rw [how, if_pos rfl]
    exact ⟨hd, ⟨fun _ => rfl, fun _ => rfl⟩, by omega⟩

/-- C4 witness: clone once, release both owners; the cleanup has run
exactly once and only at the very end. -/
theorem C4_cleanup_exactly_once_witness :
    ((⟨⟨0, 0, 7⟩, true, 0, 1, none⟩ : World Nat).drops =
      if (⟨⟨0, 0, 7⟩, true, 0, 1, none⟩ : World Nat).owners = 0 then 1 else 0) ∧
    ((⟨⟨0, 0, 7⟩, true, 0, 1, none⟩ : World Nat).freed = true ↔
      (⟨⟨0, 0, 7⟩, true, 0, 1, none⟩ : World Nat).owners = 0) ∧
    (⟨⟨0, 0, 7⟩, true, 0, 1, none⟩ : World Nat).drops ≤ 1 :=
  C4_cleanup_exactly_once 42 7 [Op.cloneArc, Op.dropArc, Op.dropArc]
    ⟨⟨0, 0, 7⟩, true, 0, 1, none⟩ (by decide) (by decide) rfl

/-- C5: in every valid trace in which an observer has been derived (which
requires a live owner at derivation time) and after which no owning
handle remains live, promotion returns `None`; and concretely, Scenario
A — construct with 50, derive an observer, promote (succeeds and
dereferences to 50), release the temporary and original owners — ends
with promotion returning `None`. -/
theorem C5_promotion_after_all_released :
    (∀ (r v : Nat) (ops : List Op) (w : World Nat) (wp : Nat),
      clearLow r ≠ 0 → 1 + ops.length < USIZE →
      runOps ops (initW r v) = some w →
      w.weakProv = some wp → w.owners = 0 →
      upgradeOutcome w = some none) ∧
    (runOps [Op.downgradeArc] (initW 42 50)).map upgradeOutcome =
      some (some (some 50)) ∧
    (runOps [Op.downgradeArc, Op.upgradeArc, Op.dropArc, Op.dropArc]
      (initW 42 50)).map upgradeOutcome = some (some none) := by
  refine ⟨?_, rfl, rfl⟩
  intro r v ops w wp h0 hlen hrun hw hown
  obtain ⟨hwk, hfr, hlv⟩ :=
    (runOps_inv (clearLow_mod_two r) h0 ops (initW r v) w (initW_Inv r v)
      (by exact hlen) hrun).1
  have hwid : wp = clearLow r := hwk wp hw
  have hfq : w.freed = true := by
    cases hq : w.freed
    · exact absurd hown (by have h1 := (hlv hq).2.2.1; omega)
    · rfl
  obtain ⟨hp, hrc, how, hd⟩ := hfr hfq
  have hwp0 : wp ≠ 0 := by
    rw [hwid]
    exact h0
  have hupg : upgradeSq wp w.cell = some (false, w.cell) := by
    simp only [upgradeSq, lockSq, lockFuel]
    rw [hp, if_neg (fun hc => hwp0 hc.symm),
      if_neg (ne_or_one_of_even (by decide : (0 : Nat) % 2 = 0))]
  simp [upgradeOutcome, hw, hupg]

/-- C5 witness: the general statement applied to Scenario A's final
world. -/
theorem C5_promotion_after_all_released_witness :
    upgradeOutcome (⟨⟨0, 0, 50⟩, true, 0, 1, some 42⟩ : World Nat) = some none :=
  C5_promotion_after_all_released.1 42 50
    [Op.downgradeArc, Op.upgradeArc, Op.dropArc, Op.dropArc]
    ⟨⟨0, 0, 50⟩, true, 0, 1, some 42⟩ 42 (by decide) (by decide) rfl rfl rfl

/-- C6: in every valid trace in which an observer has been derived and at
least one owning handle is still live, promotion succeeds and the new
handle dereferences to the constructed value; and concretely, Scenario
C — construct with 21, derive an observer, promote to get a second
owner, release the original — promotion still succeeds and dereferences
to 21, and only after the temporary and the promoted owner are also
released does promotion fail. -/
theorem C6_resurrection :
    (∀ (r v : Nat) (ops : List Op) (w : World Nat) (wp : Nat),
      clearLow r ≠ 0 → 1 + ops.length < USIZE →
      runOps ops (initW r v) = some w →
      w.weakProv = some wp → 0 < w.owners →
      upgradeOutcome w = some (some v)) ∧
    (runOps [Op.downgradeArc, Op.upgradeArc, Op.dropArc] (initW 42 21)).map
      upgradeOutcome = some (some (some 21)) ∧
    (runOps [Op.downgradeArc, Op.upgradeArc, Op.dropArc, Op.upgradeArc,
      Op.dropArc, Op.dropArc] (initW 42 21)).map upgradeOutcome =
      some (some none) := by
  refine ⟨?_, rfl, rfl⟩
  intro r v ops w wp h0 hlen hrun hw hown
  obtain ⟨hwk, hfr, hlv⟩ :=
    (runOps_inv (clearLow_mod_two r) h0 ops (initW r v) w (initW_Inv r v)
      (by exact hlen) hrun).1
  have hwid : wp = clearLow r := hwk wp hw
  have hfq : w.freed = false := by
    cases hq : w.freed
    · rfl
    · exact absurd (hfr hq).2.2.1 (by omega)
  obtain ⟨hp, hrc, h1own, hdr, hdata⟩ := hlv hfq
  have hupg : upgradeSq wp w.cell =
      some (true, { w.cell with provenance := wp, ref_count := wrapAdd w.cell.ref_count }) := by
    simp [upgradeSq, lockSq, lockFuel, storeProv, hp, hwid]
  simp [upgradeOutcome, hw, hupg, derefSq, hdata]

/-- C6 witness: the general statement applied to Scenario C's
intermediate world, where the promoted owner keeps the cell alive. -/
theorem C6_resurrection_witness :
    upgradeOutcome (⟨⟨42, 1, 21⟩, false, 1, 0, some 42⟩ : World Nat) =
      some (some 21) :=
  C6_resurrection.1 42 21 [Op.downgradeArc, Op.upgradeArc, Op.dropArc]
    ⟨⟨42, 1, 21⟩, false, 1, 0, some 42⟩ 42 (by decide) (by decide) rfl rfl
    (by decide)

/-- C7: `Arc::new(value)` with random sample `r` clears the sample's lock
bit and allocates a cell whose generation equals that identity (lock bit
clear), whose strong count equals 1 and whose payload equals the value;
the initial world holds exactly one owning handle referencing that cell. -/
theorem C7_new_cell (r : Nat) (v : Nat) :
    arcNew r v = ⟨clearLow r, 1, v⟩ ∧
    (arcNew r v).provenance % 2 = 0 ∧
    (arcNew r v).ref_count = 1 ∧
    (arcNew r v).data = v ∧
    (initW r v).cell = arcNew r v ∧
    (initW r v).owners = 1 ∧
    (initW r v).freed = false ∧
    (initW r v).drops = 0 :=
  ⟨rfl, clearLow_mod_two r, rfl, rfl, rfl, rfl, rfl, rfl⟩

/-- C8: `Arc::downgrade` (via `Inner::weak`) snapshots the generation
word with the lock bit cleared — a snapshot taken while the word is
locked (`identity | 1` for an even identity) still records the pre-lock
identity — and the operation leaves the cell (strong count and
generation) unchanged, only recording the snapshot. -/
theorem C8_downgrade_snapshot {α : Type} (c : Inner α) (p : Nat) (w w2 : World α) :
    (Inner.weak c = ⟨clearLow c.provenance⟩) ∧
    ((Inner.weak c).provenance % 2 = 0) ∧
    (p % 2 = 0 → Inner.weak (⟨p ||| 1, c.ref_count, c.data⟩ : Inner α) = ⟨p⟩) ∧
    (stepOp Op.downgradeArc w = some w2 →
      w2.cell = w.cell ∧ w2.owners = w.owners ∧ w2.freed = w.freed ∧
      w2.weakProv = some (clearLow w.cell.provenance)) := by
  refine ⟨rfl, clearLow_mod_two c.provenance, ?_, ?_⟩
  · intro hp
    simp only [Inner.weak]
    rw [clearLow_or_one hp]
  · intro hs
    by_cases h0 : w.owners = 0
    · simp only [stepOp, if_pos h0] at hs
      exact Option.noConfusion hs
    · simp only [stepOp, if_neg h0] at hs
      injection hs with hs
      subst hs
      exact ⟨rfl, rfl, rfl, rfl⟩

/-- C8 witness: a snapshot of a locked word recovers the identity, and a
concrete downgrade leaves the cell untouched. -/
theorem C8_downgrade_snapshot_witness :
    Inner.weak (⟨5, 1, 9⟩ : Inner Nat) = ⟨4⟩ ∧
    ((⟨⟨42, 1, 50⟩, false, 1, 0, some 42⟩ : World Nat).cell =
        (initW 42 50).cell ∧
      (⟨⟨42, 1, 50⟩, false, 1, 0, some 42⟩ : World Nat).owners =
        (initW 42 50).owners ∧
      (⟨⟨42, 1, 50⟩, false, 1, 0, some 42⟩ : World Nat).freed =
        (initW 42 50).freed ∧
      (⟨⟨42, 1, 50⟩, false, 1, 0, some 42⟩ : World Nat).weakProv =
        some (clearLow (initW 42 50).cell.provenance)) := by
  constructor
  · exact (C8_downgrade_snapshot (⟨0, 1, 9⟩ : Inner Nat) 4 (initW 42 50)
      (initW 42 50)).2.2.1 (by decide)
  · exact (C8_downgrade_snapshot (⟨0, 1, 9⟩ : Inner Nat) 4 (initW 42 50)
      ⟨⟨42, 1, 50⟩, false, 1, 0, some 42⟩).2.2.2 rfl

/-- C9 (as amended): every atomic access to the control fields uses
sequentially consistent ordering except the provenance load in
`Inner::weak` (used by `downgrade`), which is Relaxed. -/
theorem C9_orderings_amended :
    (∀ s : Site, s ≠ Site.weakLoadProv → orderOf s = MemOrder.seqCst) ∧
    orderOf Site.weakLoadProv = MemOrder.relaxed := by
  refine ⟨?_, rfl⟩
  intro s hs
  cases s
  · exact absurd rfl hs
  all_goals rfl

/-- C9 witness: the amended statement at a concrete SeqCst site. -/
theorem C9_orderings_amended_witness :
    orderOf Site.lockCasSuccess = MemOrder.seqCst :=
  C9_orderings_amended.1 Site.lockCasSuccess (by decide)

/-- C9 counterexample: the claim that every control-field access is
sequentially consistent is false — the provenance load in `Inner::weak`
(lib.rs line 47) uses Relaxed ordering. -/
theorem C9_counterexample :
    orderOf Site.weakLoadProv = MemOrder.relaxed ∧
    ¬(∀ s : Site, orderOf s = MemOrder.seqCst) :=
  ⟨rfl, fun h => by
    have hq := h Site.weakLoadProv
    exact absurd hq (by decide)⟩

end Provenant
